import Mathlib

/-!
Verification of the sygnals DSP core (src/sygnals/core/dsp.py).

The Python module is a thin wrapper over scipy.fft, scipy.signal and librosa.
The wrapper functions (compute_fft, compute_ifft, apply_convolution,
compute_correlation, compute_autocorrelation, compute_stft, amplitude_envelope,
apply_window) are translated from the Python source, including their parameter
defaulting, validation and exception-handling structure.  The external library
calls they delegate to (scipy.fft.fft/ifft/fftfreq, scipy.signal.fftconvolve,
scipy.signal.correlate, scipy.signal.get_window, scipy.signal.hilbert,
librosa.stft) are modelled by pure mathematical definitions over exact
real/complex arithmetic, following the libraries' documented semantics.
Python exceptions are modelled with Except; numpy float arrays with List ℝ.
-/

namespace Sygnals

/-- Integer-indexed access into a list of reals, returning 0 outside the valid
index range.  Models the implicit zero extension of finite sequences used in
the convolution / correlation sum formulas. -/
def getZ (l : List ℝ) (i : ℤ) : ℝ :=
  if 0 ≤ i then l.getD i.toNat 0 else 0

/-- Convolution / correlation output-size modes of scipy.signal. -/
inductive ConvMode
  | full
  | valid
  | same
deriving DecidableEq

/-- Python exception kinds raised by sygnals/core/dsp.py:
ValueError (invalid parameters / invalid window name), ImportError
(missing rms_energy capability), and any other unexpected exception. -/
inductive DspError
  | valueError (msg : String)
  | importError (msg : String)
  | otherError (msg : String)
deriving DecidableEq

/-- Full-mode linear convolution of two real sequences:
(x * k)[i] = ∑_j x[j]·k[i-j], output length N+M-1.  This is the quantity
scipy.signal.fftconvolve computes (via FFT, exactly in real arithmetic). -/
noncomputable def conv_full (x k : List ℝ) : List ℝ :=
  (List.range (x.length + k.length - 1)).map fun (i : ℕ) =>
    ∑ j ∈ Finset.range x.length, x.getD j 0 * getZ k ((i : ℤ) - (j : ℤ))

/-- Full-mode cross-correlation as computed by scipy.signal.correlate:
z[i] = ∑_l x[l]·y[l - i + (M-1)], output length N+M-1 (M = len y).
Output index i corresponds to lag i - (M-1). -/
noncomputable def corr_full (x y : List ℝ) : List ℝ :=
  (List.range (x.length + y.length - 1)).map fun (i : ℕ) =>
    ∑ l ∈ Finset.range x.length,
      x.getD l 0 * getZ y ((l : ℤ) - (i : ℤ) + ((y.length : ℤ) - 1))

/-- scipy.signal.fftconvolve on 1-D inputs.  Zero-length inputs return an
empty array (scipy's explicit `in1.size == 0 or in2.size == 0` branch).
The mode-dependent trimming follows scipy's `_apply_conv_mode` centering:
'same' keeps len(data) entries of the full result starting at (M-1)//2,
'valid' keeps max(N,M)-min(N,M)+1 entries starting at min(N,M)-1. -/
noncomputable def scipy_fftconvolve (data kernel : List ℝ) (mode : ConvMode) : List ℝ :=
  if data.length = 0 ∨ kernel.length = 0 then []
  else
    match mode with
    | ConvMode.full => conv_full data kernel
    | ConvMode.same =>
        ((conv_full data kernel).drop ((kernel.length - 1) / 2)).take data.length
    | ConvMode.valid =>
        ((conv_full data kernel).drop (min data.length kernel.length - 1)).take
          (max data.length kernel.length - min data.length kernel.length + 1)

/-- sygnals apply_convolution (dsp.py lines 294-336): validates that the
inputs are 1-D (always true for List-modelled inputs) and delegates to
scipy.signal.fftconvolve. -/
noncomputable def apply_convolution (data kernel : List ℝ) (mode : ConvMode) :
    Except DspError (List ℝ) :=
  Except.ok (scipy_fftconvolve data kernel mode)

/-- scipy.signal.correlate on 1-D inputs, by mode.  The trimming for
'same' / 'valid' matches convolution against the reversed second input. -/
noncomputable def scipy_correlate (x y : List ℝ) (mode : ConvMode) : List ℝ :=
  match mode with
  | ConvMode.full => corr_full x y
  | ConvMode.same => ((corr_full x y).drop ((y.length - 1) / 2)).take x.length
  | ConvMode.valid =>
      ((corr_full x y).drop (min x.length y.length - 1)).take
        (max x.length y.length - min x.length y.length + 1)

/-- sygnals compute_correlation (dsp.py lines 341-388): validates 1-D inputs
and delegates to scipy.signal.correlate.  With the default method='auto',
empty inputs raise ValueError inside the library (np.correlate refuses empty
arrays for the direct method chosen at these sizes). -/
noncomputable def compute_correlation (x y : List ℝ) (mode : ConvMode) :
    Except DspError (List ℝ) :=
  if x.length = 0 ∨ y.length = 0 then
    Except.error (DspError.valueError "correlate: input arrays cannot be empty")
  else Except.ok (scipy_correlate x y mode)

/-- sygnals compute_autocorrelation (dsp.py lines 390-429): correlation of a
sequence with itself. -/
noncomputable def compute_autocorrelation (x : List ℝ) (mode : ConvMode) :
    Except DspError (List ℝ) :=
  compute_correlation x x mode

/-- A sequence is non-constant if two of its entries differ. -/
def nonConstant (x : List ℝ) : Prop :=
  ∃ i < x.length, ∃ j < x.length, x.getD i 0 ≠ x.getD j 0

-- Basic lemmas about list indexing.

lemma getD_eq_getElem_of_lt (l : List ℝ) (i : ℕ) (h : i < l.length) (d : ℝ) :
    l.getD i d = l[i] := by
  simp [List.getD_eq_getElem?_getD, List.getElem?_eq_getElem h]

lemma getD_eq_default_of_le (l : List ℝ) (i : ℕ) (h : l.length ≤ i) (d : ℝ) :
    l.getD i d = d := by
  simp [List.getD_eq_getElem?_getD, List.getElem?_eq_none h]

lemma getD_map_range {α : Type} [Inhabited α] (f : ℕ → α) (n i : ℕ) (h : i < n) (d : α) :
    (((List.range n).map f).getD i d) = f i := by
  have hlen : i < ((List.range n).map f).length := by simpa using h
  rw [List.getD_eq_getElem?_getD, List.getElem?_eq_getElem hlen]
  simp

lemma getZ_natCast (l : List ℝ) (i : ℕ) : getZ l (i : ℤ) = l.getD i 0 := by
  simp [getZ]

lemma getZ_eq_zero_of_neg (l : List ℝ) {i : ℤ} (h : i < 0) : getZ l i = 0 := by
  simp [getZ, not_le.mpr h]

lemma getZ_eq_zero_of_ge (l : List ℝ) {i : ℤ} (h : (l.length : ℤ) ≤ i) : getZ l i = 0 := by
  have h0 : 0 ≤ i := le_trans (by positivity) h
  have hle : l.length ≤ i.toNat := by omega
  rw [getZ, if_pos h0]
  exact getD_eq_default_of_le l i.toNat hle 0

lemma getZ_reverse (l : List ℝ) (i : ℤ) :
    getZ l.reverse i = getZ l ((l.length : ℤ) - 1 - i) := by
  by_cases h0 : 0 ≤ i
  · by_cases h1 : i < (l.length : ℤ)
    · have hi : i.toNat < l.length := by omega
      have hi' : ((l.length : ℤ) - 1 - i).toNat < l.length := by omega
      have h0' : (0 : ℤ) ≤ (l.length : ℤ) - 1 - i := by omega
      rw [getZ, if_pos h0, getZ, if_pos h0']
      have hrev : i.toNat < l.reverse.length := by simpa using hi
      rw [getD_eq_getElem_of_lt _ _ hrev, getD_eq_getElem_of_lt _ _ hi']
      rw [List.getElem_reverse]
      congr 1
      omega
    · have : (l.reverse.length : ℤ) ≤ i := by simpa using not_lt.mp h1
      rw [getZ_eq_zero_of_ge l.reverse this,
        getZ_eq_zero_of_neg l (by omega)]
  · have : (l.length : ℤ) ≤ (l.length : ℤ) - 1 - i := by omega
    rw [getZ_eq_zero_of_neg l.reverse (not_le.mp h0), getZ_eq_zero_of_ge l this]

lemma conv_full_length (x k : List ℝ) :
    (conv_full x k).length = x.length + k.length - 1 := by
  unfold conv_full
  rw [List.length_map, List.length_range]

lemma corr_full_length (x y : List ℝ) :
    (corr_full x y).length = x.length + y.length - 1 := by
  unfold corr_full
  rw [List.length_map, List.length_range]

/-- Key identity behind claim C3: the scipy full cross-correlation formula is
exactly full convolution against the reversed second sequence. -/
lemma corr_full_eq_conv_full_reverse (x y : List ℝ) :
    corr_full x y = conv_full x y.reverse := by
  unfold corr_full conv_full
  rw [List.length_reverse]
  refine List.map_congr_left ?_
  intro i _hi
  refine Finset.sum_congr rfl ?_
  intro l _hl
  congr 1
  rw [getZ_reverse]
  congr 1
  ring

/-- C3 (confirmed): for nonempty real sequences x and y, the full-mode
cross-correlation of x with y (compute_correlation) equals, as a whole list
and hence at every output index, the full-mode convolution
(apply_convolution) of x with the time-reversed y. -/
theorem correlation_eq_convolution_reversed (x y : List ℝ) (hx : x ≠ []) (hy : y ≠ []) :
    compute_correlation x y ConvMode.full = Except.ok (corr_full x y) ∧
    apply_convolution x y.reverse ConvMode.full = Except.ok (corr_full x y) ∧
    ∀ i : ℕ, (corr_full x y).getD i 0 = (conv_full x y.reverse).getD i 0 := by
  have hx0 : x.length ≠ 0 := by simpa using hx
  have hy0 : y.length ≠ 0 := by simpa using hy
  refine ⟨?_, ?_, ?_⟩
  · simp [compute_correlation, hx0, hy0, scipy_correlate]
  · have hcond : ¬ (x.length = 0 ∨ y.reverse.length = 0) := by
      simp [hx0, hy0]
    simp only [apply_convolution, scipy_fftconvolve, if_neg hcond]
    rw [corr_full_eq_conv_full_reverse]
  · intro i
    rw [corr_full_eq_conv_full_reverse]

/-- Witness for C3 at x = [1, 2], y = [3, 4, 5]. -/
theorem correlation_eq_convolution_reversed_witness :
    (([1, 2] : List ℝ) ≠ [] ∧ ([3, 4, 5] : List ℝ) ≠ []) ∧
    (compute_correlation [1, 2] [3, 4, 5] ConvMode.full =
        Except.ok (corr_full [1, 2] [3, 4, 5]) ∧
      apply_convolution [1, 2] ([3, 4, 5] : List ℝ).reverse ConvMode.full =
        Except.ok (corr_full [1, 2] [3, 4, 5]) ∧
      ∀ i : ℕ, (corr_full ([1, 2] : List ℝ) [3, 4, 5]).getD i 0 =
        (conv_full [1, 2] ([3, 4, 5] : List ℝ).reverse).getD i 0) :=
  ⟨⟨by simp, by simp⟩,
    correlation_eq_convolution_reversed [1, 2] [3, 4, 5] (by simp) (by simp)⟩

/-- Counterexample to C4 as stated: convolving data of length 1 with a kernel
of length 3 in mode 'same' yields a result of length 1 (the length of the
first input), not max(1, 3) = 3. -/
theorem convolution_same_length_counterexample :
    apply_convolution [1] [1, 2, 3] ConvMode.same =
      Except.ok (scipy_fftconvolve [1] [1, 2, 3] ConvMode.same) ∧
    (scipy_fftconvolve [1] [1, 2, 3] ConvMode.same).length = 1 ∧
    (1 : ℕ) ≠ max ([1] : List ℝ).length ([1, 2, 3] : List ℝ).length := by
  refine ⟨rfl, ?_, by simp⟩
  simp [scipy_fftconvolve, conv_full_length]

/-- C4 (corrected): for nonempty data and kernel, convolution in mode 'same'
returns a sequence of length len(data) (the first input), centered within the
full-mode result: entry i of the 'same' result is entry i + (M-1)/2 of the
full result, M = kernel length. -/
theorem convolution_same_length_eq_data_length (x k : List ℝ) (hx : x ≠ []) (hk : k ≠ []) :
    ∃ r, apply_convolution x k ConvMode.same = Except.ok r ∧
      r.length = x.length ∧
      ∀ i < r.length, r.getD i 0 = (conv_full x k).getD (i + (k.length - 1) / 2) 0 := by
  have hx0 : x.length ≠ 0 := by simpa using hx
  have hk0 : k.length ≠ 0 := by simpa using hk
  refine ⟨((conv_full x k).drop ((k.length - 1) / 2)).take x.length, ?_, ?_, ?_⟩
  · simp [apply_convolution, scipy_fftconvolve, hx0, hk0]
  · rw [List.length_take, List.length_drop, conv_full_length]
    omega
  · intro i hi
    have hlen : (((conv_full x k).drop ((k.length - 1) / 2)).take x.length).length
        = x.length := by
      rw [List.length_take, List.length_drop, conv_full_length]
      omega
    rw [hlen] at hi
    have hconv : i + (k.length - 1) / 2 < (conv_full x k).length := by
      rw [conv_full_length]
      omega
    have hdrop : i < ((conv_full x k).drop ((k.length - 1) / 2)).length := by
      rw [List.length_drop, conv_full_length]
      omega
    have htake : i < (((conv_full x k).drop ((k.length - 1) / 2)).take x.length).length := by
      rw [hlen]; exact hi
    rw [getD_eq_getElem_of_lt _ _ htake, getD_eq_getElem_of_lt _ _ hconv]
    rw [List.getElem_take, List.getElem_drop]
    congr 1
    omega

/-- Witness for C4 (amended) at data = [1, 2], kernel = [5]. -/
theorem convolution_same_length_eq_data_length_witness :
    (([1, 2] : List ℝ) ≠ [] ∧ ([5] : List ℝ) ≠ []) ∧
    (∃ r, apply_convolution [1, 2] [5] ConvMode.same = Except.ok r ∧
      r.length = ([1, 2] : List ℝ).length ∧
      ∀ i < r.length, r.getD i 0 =
        (conv_full [1, 2] [5]).getD (i + (([5] : List ℝ).length - 1) / 2) 0) :=
  ⟨⟨by simp, by simp⟩,
    convolution_same_length_eq_data_length [1, 2] [5] (by simp) (by simp)⟩

/-- Counterexample to C7 as stated: convolving an empty data sequence with a
nonempty kernel does not raise an invalid-parameter error; scipy's
fftconvolve returns an empty array and apply_convolution returns it as a
successful result. -/
theorem convolution_empty_counterexample :
    apply_convolution [] [1] ConvMode.full = Except.ok [] ∧
    (apply_convolution [] [1] ConvMode.full).isOk = true := by
  have h : apply_convolution ([] : List ℝ) [1] ConvMode.full = Except.ok [] := by
    simp [apply_convolution, scipy_fftconvolve]
  exact ⟨h, by rw [h]; rfl⟩

/-- C7 (corrected): when either input of apply_convolution is empty, the
operation does not fail; it returns an empty list (scipy.signal.fftconvolve's
zero-length-array branch), in every mode. -/
theorem convolution_empty_returns_empty (data kernel : List ℝ) (mode : ConvMode)
    (h : data = [] ∨ kernel = []) :
    apply_convolution data kernel mode = Except.ok [] := by
  rcases h with h | h <;> subst h <;> simp [apply_convolution, scipy_fftconvolve]

/-- Witness for C7 (amended) at data = [], kernel = [2], mode 'same'. -/
theorem convolution_empty_returns_empty_witness :
    (([] : List ℝ) = [] ∨ ([2] : List ℝ) = []) ∧
    apply_convolution [] [2] ConvMode.same = Except.ok [] :=
  ⟨Or.inl rfl, convolution_empty_returns_empty [] [2] ConvMode.same (Or.inl rfl)⟩

-- Machinery for claim C2 (the zero-lag autocorrelation peak).

lemma sum_getZ_range_to_Ico (x : List ℝ) (d : ℤ) :
    (∑ l ∈ Finset.range x.length, getZ x (l : ℤ) * getZ x ((l : ℤ) + d))
      = ∑ l ∈ Finset.Ico (0 : ℤ) (x.length : ℤ), getZ x l * getZ x (l + d) := by
  refine Finset.sum_nbij' (fun (a : ℕ) => (a : ℤ)) (fun (b : ℤ) => b.toNat)
    ?_ ?_ ?_ ?_ ?_
  · intro a ha
    simp only [Finset.mem_range] at ha
    simp only [Finset.mem_Ico]
    omega
  · intro b hb
    simp only [Finset.mem_Ico] at hb
    simp only [Finset.mem_range]
    omega
  · intro a _
    simp
  · intro b hb
    simp only [Finset.mem_Ico] at hb
    change ((b.toNat : ℤ)) = b
    omega
  · intro a _
    rfl

lemma sum_getZ_sq_range_to_Ico (x : List ℝ) :
    (∑ l ∈ Finset.range x.length, getZ x (l : ℤ) * getZ x (l : ℤ))
      = ∑ l ∈ Finset.Ico (0 : ℤ) (x.length : ℤ), getZ x l * getZ x l := by
  refine Finset.sum_nbij' (fun (a : ℕ) => (a : ℤ)) (fun (b : ℤ) => b.toNat)
    ?_ ?_ ?_ ?_ ?_
  · intro a ha
    simp only [Finset.mem_range] at ha
    simp only [Finset.mem_Ico]
    omega
  · intro b hb
    simp only [Finset.mem_Ico] at hb
    simp only [Finset.mem_range]
    omega
  · intro a _
    simp
  · intro b hb
    simp only [Finset.mem_Ico] at hb
    change ((b.toNat : ℤ)) = b
    omega
  · intro a _
    rfl

/-- Sums of getZ-products over any window containing the support can be cut
down to the support interval [0, len). -/
lemma sum_eq_sum_Ico_of_support (x : List ℝ) (g : ℤ → ℝ) (W : Finset ℤ)
    (hW : Finset.Ico (0 : ℤ) (x.length : ℤ) ⊆ W) :
    (∑ l ∈ W, getZ x l * g l)
      = ∑ l ∈ Finset.Ico (0 : ℤ) (x.length : ℤ), getZ x l * g l := by
  refine (Finset.sum_subset hW ?_).symm
  intro l _ hl
  simp only [Finset.mem_Ico, not_and_or, not_le, not_lt] at hl
  rcases hl with h | h
  · rw [getZ_eq_zero_of_neg x h, zero_mul]
  · rw [getZ_eq_zero_of_ge x h, zero_mul]

/-- Core strict inequality behind C2: for a non-constant (in particular not
identically zero) real sequence and any nonzero integer lag d, the lagged
autocorrelation sum is strictly below the zero-lag energy. -/
lemma autocorr_strict (x : List ℝ) (hnc : nonConstant x) (d : ℤ) (hd : d ≠ 0) :
    (∑ l ∈ Finset.Ico (0 : ℤ) (x.length : ℤ), getZ x l * getZ x (l + d)) <
      ∑ l ∈ Finset.Ico (0 : ℤ) (x.length : ℤ), getZ x l * getZ x l := by
  have habs : 0 ≤ |d| := abs_nonneg d
  have hled : d ≤ |d| := le_abs_self d
  have hled' : -d ≤ |d| := neg_le_abs d
  set W : Finset ℤ := Finset.Ico (-|d|) ((x.length : ℤ) + |d|) with hWdef
  have hsub : Finset.Ico (0 : ℤ) (x.length : ℤ) ⊆ W := by
    rw [hWdef]
    exact Finset.Ico_subset_Ico (by linarith) (by linarith)
  have h1 : (∑ l ∈ W, getZ x l * getZ x (l + d))
      = ∑ l ∈ Finset.Ico (0 : ℤ) (x.length : ℤ), getZ x l * getZ x (l + d) :=
    sum_eq_sum_Ico_of_support x (fun l => getZ x (l + d)) W hsub
  have h2 : (∑ l ∈ W, getZ x l * getZ x l)
      = ∑ l ∈ Finset.Ico (0 : ℤ) (x.length : ℤ), getZ x l * getZ x l :=
    sum_eq_sum_Ico_of_support x (fun l => getZ x l) W hsub
  have h3 : (∑ l ∈ W, getZ x (l + d) * getZ x (l + d))
      = ∑ l ∈ Finset.Ico (0 : ℤ) (x.length : ℤ), getZ x l * getZ x l := by
    rw [hWdef, Finset.sum_Ico_add' (fun m => getZ x m * getZ x m) (-|d|)
      ((x.length : ℤ) + |d|) d]
    refine (Finset.sum_subset (Finset.Ico_subset_Ico (by linarith) (by linarith)) ?_).symm
    intro l _ hl
    simp only [Finset.mem_Ico, not_and_or, not_le, not_lt] at hl
    rcases hl with h | h
    · rw [getZ_eq_zero_of_neg x h, zero_mul]
    · rw [getZ_eq_zero_of_ge x h, zero_mul]
  have hQ : (∑ l ∈ W, (getZ x l - getZ x (l + d)) ^ 2)
      = (∑ l ∈ W, getZ x l * getZ x l)
        - 2 * (∑ l ∈ W, getZ x l * getZ x (l + d))
        + ∑ l ∈ W, getZ x (l + d) * getZ x (l + d) := by
    have hterm : ∀ l ∈ W, (getZ x l - getZ x (l + d)) ^ 2
        = getZ x l * getZ x l - 2 * (getZ x l * getZ x (l + d))
          + getZ x (l + d) * getZ x (l + d) := by
      intro l _
      ring
    rw [Finset.sum_congr rfl hterm, Finset.sum_add_distrib, Finset.sum_sub_distrib,
      ← Finset.mul_sum]
  have hQnn : 0 ≤ ∑ l ∈ W, (getZ x l - getZ x (l + d)) ^ 2 :=
    Finset.sum_nonneg fun l _ => sq_nonneg _
  have hQne : (∑ l ∈ W, (getZ x l - getZ x (l + d)) ^ 2) ≠ 0 := by
    intro hzero
    have hall : ∀ l ∈ W, (getZ x l - getZ x (l + d)) ^ 2 = 0 :=
      (Finset.sum_eq_zero_iff_of_nonneg fun l _ => sq_nonneg _).mp hzero
    have hallW : ∀ l ∈ W, getZ x l = getZ x (l + d) := by
      intro l hl
      have h0 := sq_eq_zero_iff.mp (hall l hl)
      linarith [sub_eq_zero.mp h0]
    have hallZ : ∀ l : ℤ, getZ x l = getZ x (l + d) := by
      intro l
      by_cases hl : l ∈ W
      · exact hallW l hl
      · have hl' : ¬ (-|d| ≤ l ∧ l < (x.length : ℤ) + |d|) := by
          rw [hWdef] at hl
          simpa [Finset.mem_Ico] using hl
        push_neg at hl'
        have hout : l < -|d| ∨ (x.length : ℤ) + |d| ≤ l := by
          rcases lt_or_le l (-|d|) with hc | hc
          · exact Or.inl hc
          · exact Or.inr (hl' hc)
        have hz1 : getZ x l = 0 := by
          rcases hout with h | h
          · exact getZ_eq_zero_of_neg x (by linarith)
          · exact getZ_eq_zero_of_ge x (by linarith)
        have hz2 : getZ x (l + d) = 0 := by
          rcases hout with h | h
          · exact getZ_eq_zero_of_neg x (by linarith)
          · exact getZ_eq_zero_of_ge x (by linarith)
        rw [hz1, hz2]
    have hiter : ∀ (k : ℕ) (l : ℤ), getZ x l = getZ x (l + (k : ℤ) * d) := by
      intro k
      induction k with
      | zero => intro l; simp
      | succ m ih =>
        intro l
        rw [ih l, hallZ (l + (m : ℤ) * d)]
        congr 1
        push_cast
        ring
    have hzero_all : ∀ i : ℕ, i < x.length → x.getD i 0 = 0 := by
      intro i hi
      have hrep : getZ x (i : ℤ) = getZ x ((i : ℤ) + (x.length : ℤ) * d) :=
        hiter x.length (i : ℤ)
      have hfar : getZ x ((i : ℤ) + (x.length : ℤ) * d) = 0 := by
        rcases lt_or_gt_of_ne hd with hneg | hpos
        · have hd1 : d ≤ -1 := by omega
          have hmul : (x.length : ℤ) * d ≤ (x.length : ℤ) * (-1) :=
            mul_le_mul_of_nonneg_left hd1 (by positivity)
          refine getZ_eq_zero_of_neg x ?_
          have hilen : (i : ℤ) < (x.length : ℤ) := by exact_mod_cast hi
          linarith
        · have hd1 : (1 : ℤ) ≤ d := by omega
          have hmul : (x.length : ℤ) * 1 ≤ (x.length : ℤ) * d :=
            mul_le_mul_of_nonneg_left hd1 (by positivity)
          refine getZ_eq_zero_of_ge x ?_
          have hinn : (0 : ℤ) ≤ (i : ℤ) := by positivity
          linarith
      rw [← getZ_natCast, hrep, hfar]
    obtain ⟨i, hi, j, hj, hne⟩ := hnc
    exact hne (by rw [hzero_all i hi, hzero_all j hj])
  have hQpos : 0 < ∑ l ∈ W, (getZ x l - getZ x (l + d)) ^ 2 :=
    lt_of_le_of_ne hQnn (Ne.symm hQne)
  rw [h1, h2, h3] at hQ
  linarith

/-- The entries of the full autocorrelation, written as lagged getZ sums. -/
lemma corr_full_self_getD (x : List ℝ) (i : ℕ) (hi : i < x.length + x.length - 1) :
    (corr_full x x).getD i 0
      = ∑ l ∈ Finset.range x.length,
          getZ x (l : ℤ) * getZ x ((l : ℤ) + (((x.length : ℤ) - 1) - (i : ℤ))) := by
  unfold corr_full
  rw [getD_map_range _ _ _ hi]
  refine Finset.sum_congr rfl ?_
  intro l _
  rw [getZ_natCast]
  congr 2
  ring

/-- C2 (confirmed): for any non-constant real sequence x with at least two
samples, the full-mode autocorrelation succeeds and attains its maximum
exactly at the zero-lag index len(x)-1: every other index holds a strictly
smaller value. -/
theorem autocorrelation_peak_at_zero_lag (x : List ℝ) (h2 : 2 ≤ x.length)
    (hnc : nonConstant x) :
    ∃ r, compute_autocorrelation x ConvMode.full = Except.ok r ∧
      r.length = x.length + x.length - 1 ∧
      ∀ i < r.length, i ≠ x.length - 1 → r.getD i 0 < r.getD (x.length - 1) 0 := by
  have hx0 : x.length ≠ 0 := by omega
  refine ⟨corr_full x x, ?_, corr_full_length x x, ?_⟩
  · simp [compute_autocorrelation, compute_correlation, hx0, scipy_correlate]
  · intro i hi hne
    rw [corr_full_length x x] at hi
    have hi0 : x.length - 1 < x.length + x.length - 1 := by omega
    rw [corr_full_self_getD x i hi, corr_full_self_getD x (x.length - 1) hi0]
    have hz : ((x.length : ℤ) - 1) - ((x.length - 1 : ℕ) : ℤ) = 0 := by omega
    rw [hz]
    simp only [add_zero]
    rw [sum_getZ_range_to_Ico x (((x.length : ℤ) - 1) - (i : ℤ)),
      sum_getZ_sq_range_to_Ico x]
    exact autocorr_strict x hnc (((x.length : ℤ) - 1) - (i : ℤ)) (by omega)

/-- Witness for C2 at the non-constant sequence x = [0, 1]. -/
theorem autocorrelation_peak_at_zero_lag_witness :
    (2 ≤ ([0, 1] : List ℝ).length ∧ nonConstant [0, 1]) ∧
    (∃ r, compute_autocorrelation [0, 1] ConvMode.full = Except.ok r ∧
      r.length = ([0, 1] : List ℝ).length + ([0, 1] : List ℝ).length - 1 ∧
      ∀ i < r.length, i ≠ ([0, 1] : List ℝ).length - 1 →
        r.getD i 0 < r.getD (([0, 1] : List ℝ).length - 1) 0) :=
  ⟨⟨by simp, ⟨0, by simp, 1, by simp, by norm_num⟩⟩,
    autocorrelation_peak_at_zero_lag [0, 1] (by simp)
      ⟨0, by simp, 1, by simp, by norm_num⟩⟩

-- Discrete Fourier transform model (scipy.fft.fft / ifft / fftfreq).

/-- Twiddle factor e^(2·π·i·m / n). -/
noncomputable def cexp_tw (n : ℕ) (m : ℤ) : ℂ :=
  Complex.exp (2 * Real.pi * Complex.I * m / n)

/-- scipy.fft.fft(x, n): length-n DFT of x, zero-padding (getD default 0)
if n > len(x) and truncating if n < len(x):
X[k] = ∑_{j<n} x[j]·e^(-2·π·i·j·k/n). -/
noncomputable def scipy_fft (x : List ℝ) (n : ℕ) : List ℂ :=
  (List.range n).map fun (k : ℕ) =>
    ∑ j ∈ Finset.range n, ((x.getD j 0 : ℝ) : ℂ) * cexp_tw n (-((j : ℤ) * (k : ℤ)))

/-- scipy.fft.ifft followed by taking the real part, as compute_ifft does:
x[j] = Re((1/n)·∑_{k<n} X[k]·e^(2·π·i·j·k/n)). -/
noncomputable def scipy_ifft (X : List ℂ) (n : ℕ) : List ℝ :=
  (List.range n).map fun (j : ℕ) =>
    (((n : ℂ))⁻¹ * ∑ k ∈ Finset.range n, X.getD k 0 * cexp_tw n ((j : ℤ) * (k : ℤ))).re

/-- scipy.fft.fftfreq(n, d): bin k maps to k/(n·d) for 2k < n and to
(k-n)/(n·d) otherwise (signed-frequency layout). -/
noncomputable def scipy_fftfreq (n : ℕ) (d : ℝ) : List ℝ :=
  (List.range n).map fun (k : ℕ) =>
    (if 2 * k < n then (k : ℝ) else (k : ℝ) - n) / (n * d)

lemma cexp_tw_add (n : ℕ) (a b : ℤ) :
    cexp_tw n a * cexp_tw n b = cexp_tw n (a + b) := by
  unfold cexp_tw
  rw [← Complex.exp_add]
  congr 1
  push_cast
  ring

lemma cexp_tw_mul_natCast (n : ℕ) (m : ℤ) (k : ℕ) :
    cexp_tw n (m * k) = cexp_tw n m ^ k := by
  unfold cexp_tw
  rw [← Complex.exp_nat_mul]
  congr 1
  push_cast
  ring

lemma cexp_tw_pow_self (n : ℕ) (hn : 0 < n) (m : ℤ) : cexp_tw n m ^ n = 1 := by
  unfold cexp_tw
  rw [← Complex.exp_nat_mul]
  have hne : (n : ℂ) ≠ 0 := Nat.cast_ne_zero.mpr hn.ne'
  have harg : (n : ℂ) * (2 * Real.pi * Complex.I * m / n)
      = (m : ℂ) * (2 * Real.pi * Complex.I) := by
    field_simp
    ring
  rw [harg, Complex.exp_int_mul_two_pi_mul_I]

lemma cexp_tw_of_dvd (n : ℕ) (hn : 0 < n) (m : ℤ) (h : (n : ℤ) ∣ m) :
    cexp_tw n m = 1 := by
  obtain ⟨c, hc⟩ := h
  unfold cexp_tw
  have hne : (n : ℂ) ≠ 0 := Nat.cast_ne_zero.mpr hn.ne'
  have harg : 2 * (Real.pi : ℂ) * Complex.I * m / n
      = (c : ℂ) * (2 * Real.pi * Complex.I) := by
    rw [hc]
    push_cast
    field_simp
    ring
  rw [harg, Complex.exp_int_mul_two_pi_mul_I]

lemma cexp_tw_ne_one (n : ℕ) (hn : 0 < n) (m : ℤ) (hm : ¬ (n : ℤ) ∣ m) :
    cexp_tw n m ≠ 1 := by
  intro h1
  unfold cexp_tw at h1
  obtain ⟨t, ht⟩ := Complex.exp_eq_one_iff.mp h1
  have hne : (n : ℂ) ≠ 0 := Nat.cast_ne_zero.mpr hn.ne'
  have hpi : ((Real.pi : ℝ) : ℂ) ≠ 0 := Complex.ofReal_ne_zero.mpr Real.pi_ne_zero
  have h2piI : (2 * (Real.pi : ℂ) * Complex.I) ≠ 0 :=
    mul_ne_zero (mul_ne_zero two_ne_zero hpi) Complex.I_ne_zero
  have h2 : (2 * (Real.pi : ℂ) * Complex.I) * m
      = (2 * (Real.pi : ℂ) * Complex.I) * (t * n) := by
    field_simp at ht
    linear_combination ht
  have hmc : (m : ℂ) = (t : ℂ) * n := mul_left_cancel₀ h2piI h2
  have hmz : m = t * n := by exact_mod_cast hmc
  exact hm ⟨t, by rw [hmz]; ring⟩

/-- Orthogonality of the DFT characters: ∑_{k<n} e^(2·π·i·m·k/n) equals n if
n divides m, and 0 otherwise. -/
lemma sum_cexp_tw (n : ℕ) (hn : 0 < n) (m : ℤ) :
    (∑ k ∈ Finset.range n, cexp_tw n (m * k)) = if (n : ℤ) ∣ m then (n : ℂ) else 0 := by
  by_cases hdvd : (n : ℤ) ∣ m
  · rw [if_pos hdvd]
    have hone : ∀ k ∈ Finset.range n, cexp_tw n (m * k) = 1 := by
      intro k _
      rw [cexp_tw_mul_natCast, cexp_tw_of_dvd n hn m hdvd, one_pow]
    rw [Finset.sum_congr rfl hone]
    simp
  · rw [if_neg hdvd]
    have hzeta : cexp_tw n m ≠ 1 := cexp_tw_ne_one n hn m hdvd
    have hgeom : (∑ k ∈ Finset.range n, cexp_tw n (m * k))
        = ∑ k ∈ Finset.range n, cexp_tw n m ^ k :=
      Finset.sum_congr rfl fun k _ => cexp_tw_mul_natCast n m k
    rw [hgeom, geom_sum_eq hzeta, cexp_tw_pow_self n hn m]
    simp

lemma scipy_fft_length (x : List ℝ) (n : ℕ) : (scipy_fft x n).length = n := by
  unfold scipy_fft
  rw [List.length_map, List.length_range]

lemma scipy_fft_getD (x : List ℝ) (n k : ℕ) (hk : k < n) :
    (scipy_fft x n).getD k 0
      = ∑ j ∈ Finset.range n, ((x.getD j 0 : ℝ) : ℂ) * cexp_tw n (-((j : ℤ) * (k : ℤ))) := by
  unfold scipy_fft
  exact getD_map_range _ _ _ hk 0

/-- DFT inversion: for every index j < n, the inverse transform of the
forward transform recovers the (zero-extended / truncated) input exactly. -/
lemma scipy_ifft_scipy_fft_getD (x : List ℝ) (n j : ℕ) (hj : j < n) :
    (scipy_ifft (scipy_fft x n) n).getD j 0 = x.getD j 0 := by
  have hn : 0 < n := lt_of_le_of_lt (Nat.zero_le j) hj
  have hne : (n : ℂ) ≠ 0 := Nat.cast_ne_zero.mpr hn.ne'
  unfold scipy_ifft
  rw [getD_map_range _ _ _ hj]
  have hspec : ∀ k ∈ Finset.range n,
      (scipy_fft x n).getD k 0 * cexp_tw n ((j : ℤ) * (k : ℤ))
        = ∑ l ∈ Finset.range n,
            ((x.getD l 0 : ℝ) : ℂ) * cexp_tw n (((j : ℤ) - (l : ℤ)) * (k : ℤ)) := by
    intro k hk
    rw [scipy_fft_getD x n k (Finset.mem_range.mp hk), Finset.sum_mul]
    refine Finset.sum_congr rfl ?_
    intro l _
    rw [mul_assoc, cexp_tw_add]
    have harg : -((l : ℤ) * (k : ℤ)) + (j : ℤ) * (k : ℤ)
        = ((j : ℤ) - (l : ℤ)) * (k : ℤ) := by ring
    rw [harg]
  rw [Finset.sum_congr rfl hspec, Finset.sum_comm]
  have hinner : ∀ l ∈ Finset.range n,
      (∑ k ∈ Finset.range n,
          ((x.getD l 0 : ℝ) : ℂ) * cexp_tw n (((j : ℤ) - (l : ℤ)) * (k : ℤ)))
        = ((x.getD l 0 : ℝ) : ℂ)
            * (if (n : ℤ) ∣ ((j : ℤ) - (l : ℤ)) then (n : ℂ) else 0) := by
    intro l _
    rw [← Finset.mul_sum, sum_cexp_tw n hn ((j : ℤ) - (l : ℤ))]
  rw [Finset.sum_congr rfl hinner]
  rw [Finset.sum_eq_single j]
  · rw [if_pos (by simp), show ((n : ℂ))⁻¹ * (((x.getD j 0 : ℝ) : ℂ) * n)
      = ((x.getD j 0 : ℝ) : ℂ) from by field_simp]
    exact Complex.ofReal_re _
  · intro l hl hlj
    have hlt : l < n := Finset.mem_range.mp hl
    have hnd : ¬ (n : ℤ) ∣ ((j : ℤ) - (l : ℤ)) := by
      intro hdvd
      have hne0 : (j : ℤ) - (l : ℤ) ≠ 0 := by
        intro hz
        exact hlj (by omega)
      have habs : |(j : ℤ) - (l : ℤ)| < (n : ℤ) :=
        abs_lt.mpr ⟨by omega, by omega⟩
      have hle := Int.le_of_dvd (abs_pos.mpr hne0) ((dvd_abs _ _).mpr hdvd)
      linarith
    rw [if_neg hnd, mul_zero]
  · intro hj'
    exact absurd (Finset.mem_range.mpr hj) hj'

-- Window catalog (scipy.signal.get_window with fftbins=False, i.e. symmetric
-- windows, as used by apply_window).  scipy returns an all-ones window for
-- lengths 0 and 1 (its _len_guards short-circuit).

/-- Symmetric Hann window: w[j] = 0.5·(1 - cos(2·π·j/(L-1))) for L > 1. -/
noncomputable def hann_window (L : ℕ) : List ℝ :=
  if L ≤ 1 then List.replicate L 1
  else (List.range L).map fun (j : ℕ) =>
    0.5 * (1 - Real.cos (2 * Real.pi * j / ((L : ℝ) - 1)))

/-- Symmetric Hamming window. -/
noncomputable def hamming_window (L : ℕ) : List ℝ :=
  if L ≤ 1 then List.replicate L 1
  else (List.range L).map fun (j : ℕ) =>
    0.54 - 0.46 * Real.cos (2 * Real.pi * j / ((L : ℝ) - 1))

/-- Symmetric Blackman window. -/
noncomputable def blackman_window (L : ℕ) : List ℝ :=
  if L ≤ 1 then List.replicate L 1
  else (List.range L).map fun (j : ℕ) =>
    0.42 - 0.5 * Real.cos (2 * Real.pi * j / ((L : ℝ) - 1))
      + 0.08 * Real.cos (4 * Real.pi * j / ((L : ℝ) - 1))

/-- Symmetric Bartlett (triangular) window. -/
noncomputable def bartlett_window (L : ℕ) : List ℝ :=
  if L ≤ 1 then List.replicate L 1
  else (List.range L).map fun (j : ℕ) =>
    2 / ((L : ℝ) - 1) * (((L : ℝ) - 1) / 2 - |(j : ℝ) - ((L : ℝ) - 1) / 2|)

/-- Rectangular (boxcar) window. -/
def boxcar_window (L : ℕ) : List ℝ :=
  List.replicate L 1

/-- scipy.signal.get_window(window_type, L, fftbins=False), restricted to the
window names the spec's WindowCatalog requires; an unknown name yields none
(scipy raises ValueError). -/
noncomputable def get_window (window_type : String) (L : ℕ) : Option (List ℝ) :=
  if window_type = "hann" then some (hann_window L)
  else if window_type = "hamming" then some (hamming_window L)
  else if window_type = "blackman" then some (blackman_window L)
  else if window_type = "bartlett" then some (bartlett_window L)
  else if window_type = "boxcar" then some (boxcar_window L)
  else none

/-- sygnals apply_window (dsp.py lines 641-691): generate the symmetric
window of the data's length and multiply elementwise; an invalid window
name is re-raised as ValueError. -/
noncomputable def apply_window (data : List ℝ) (window_type : String) :
    Except DspError (List ℝ) :=
  match get_window window_type data.length with
  | some w => Except.ok (List.zipWith (fun u v => u * v) data w)
  | none => Except.error (DspError.valueError ("Invalid window type " ++ window_type))

/-- The exception handler around the windowing step of compute_fft
(dsp.py lines 85-93): a ValueError from apply_window is re-raised; any OTHER
exception is swallowed with a warning and the ORIGINAL (unwindowed) data is
used for the FFT. -/
def fft_window_fallback (data : List ℝ) :
    Except DspError (List ℝ) → Except DspError (List ℝ)
  | Except.ok d => Except.ok d
  | Except.error (DspError.valueError m) =>
      Except.error (DspError.valueError ("Invalid window type: " ++ m))
  | Except.error _ => Except.ok data

/-- The default value of compute_fft's window parameter (dsp.py line 44). -/
def fft_default_window : Option String := some "hann"

/-- The windowing step of compute_fft (dsp.py lines 83-93): windowing is
skipped for window=None and, by Python truthiness of `if window:`, for the
empty string; otherwise apply_window runs under the fallback handler. -/
noncomputable def fft_window_step (data : List ℝ) (window : Option String) :
    Except DspError (List ℝ) :=
  match window with
  | none => Except.ok data
  | some w =>
      if w = "" then Except.ok data
      else fft_window_fallback data (apply_window data w)

/-- sygnals compute_fft (dsp.py lines 40-112): optional windowing, then
scipy.fft.fft with length n (defaulting to the processed data length) and
scipy.fft.fftfreq(n, 1/fs). -/
noncomputable def compute_fft (data : List ℝ) (fs : ℝ) (n : Option ℕ)
    (window : Option String) : Except DspError (List ℝ × List ℂ) :=
  match fft_window_step data window with
  | Except.error e => Except.error e
  | Except.ok dp =>
      Except.ok (scipy_fftfreq (n.getD dp.length) (1 / fs),
        scipy_fft dp (n.getD dp.length))

/-- sygnals compute_ifft (dsp.py lines 114-162): scipy.fft.ifft with length
n (defaulting to the spectrum length), returning the real part; a large
discarded imaginary part only logs a warning. -/
noncomputable def compute_ifft (spectrum : List ℂ) (n : Option ℕ) : List ℝ :=
  scipy_ifft spectrum (n.getD spectrum.length)

lemma hann_window_length (L : ℕ) : (hann_window L).length = L := by
  unfold hann_window
  by_cases h : L ≤ 1 <;> simp [h]

lemma hann_window_getD_zero (L : ℕ) (hL : 1 < L) : (hann_window L).getD 0 0 = 0 := by
  unfold hann_window
  rw [if_neg (by omega), getD_map_range _ _ _ (by omega)]
  norm_num

lemma hann_window_getD_last (L : ℕ) (hL : 1 < L) :
    (hann_window L).getD (L - 1) 0 = 0 := by
  unfold hann_window
  rw [if_neg (by omega), getD_map_range _ _ _ (by omega)]
  have hL2 : (2 : ℝ) ≤ (L : ℝ) := by exact_mod_cast hL
  have hL1 : ((L : ℝ) - 1) ≠ 0 := by linarith
  have hcast : (((L - 1 : ℕ)) : ℝ) = (L : ℝ) - 1 := by
    have h1 : 1 ≤ L := by omega
    push_cast [Nat.cast_sub h1]
    ring
  rw [hcast]
  have harg : 2 * Real.pi * ((L : ℝ) - 1) / ((L : ℝ) - 1) = 2 * Real.pi := by
    field_simp
  rw [harg, Real.cos_two_pi]
  norm_num

lemma getD_zipWith_mul (a b : List ℝ) (i : ℕ) (ha : i < a.length) (hb : i < b.length) :
    (List.zipWith (fun u v => u * v) a b).getD i 0 = a.getD i 0 * b.getD i 0 := by
  have hz : i < (List.zipWith (fun u v => u * v) a b).length := by
    rw [List.length_zipWith]
    omega
  rw [getD_eq_getElem_of_lt _ _ hz, getD_eq_getElem_of_lt _ _ ha,
    getD_eq_getElem_of_lt _ _ hb]
  exact List.getElem_zipWith

/-- C9 (confirmed): for L > 1 the symmetric Hann window is exactly 0 at
index 0 and at index L-1, and hence applying the Hann window to any signal
of length L yields 0 at the first and last sample. -/
theorem hann_window_endpoints_zero (L : ℕ) (hL : 1 < L) (data : List ℝ)
    (hd : data.length = L) :
    (hann_window L).getD 0 0 = 0 ∧ (hann_window L).getD (L - 1) 0 = 0 ∧
    apply_window data "hann" =
      Except.ok (List.zipWith (fun u v => u * v) data (hann_window L)) ∧
    (List.zipWith (fun u v => u * v) data (hann_window L)).getD 0 0 = 0 ∧
    (List.zipWith (fun u v => u * v) data (hann_window L)).getD (L - 1) 0 = 0 := by
  refine ⟨hann_window_getD_zero L hL, hann_window_getD_last L hL, ?_, ?_, ?_⟩
  · unfold apply_window
    rw [show get_window "hann" data.length = some (hann_window L) from by
      rw [hd]; unfold get_window; rw [if_pos rfl]]
  · rw [getD_zipWith_mul _ _ _ (by omega) (by rw [hann_window_length]; omega),
      hann_window_getD_zero L hL, mul_zero]
  · rw [getD_zipWith_mul _ _ _ (by omega) (by rw [hann_window_length]; omega),
      hann_window_getD_last L hL, mul_zero]

/-- Witness for C9 at L = 4, data = [1, 2, 3, 4]. -/
theorem hann_window_endpoints_zero_witness :
    (1 < 4 ∧ ([1, 2, 3, 4] : List ℝ).length = 4) ∧
    ((hann_window 4).getD 0 0 = 0 ∧ (hann_window 4).getD (4 - 1) 0 = 0 ∧
      apply_window [1, 2, 3, 4] "hann" =
        Except.ok (List.zipWith (fun u v => u * v) [1, 2, 3, 4] (hann_window 4)) ∧
      (List.zipWith (fun u v => u * v) ([1, 2, 3, 4] : List ℝ)
        (hann_window 4)).getD 0 0 = 0 ∧
      (List.zipWith (fun u v => u * v) ([1, 2, 3, 4] : List ℝ)
        (hann_window 4)).getD (4 - 1) 0 = 0) :=
  ⟨⟨by norm_num, by simp⟩, hann_window_endpoints_zero 4 (by norm_num) [1, 2, 3, 4] (by simp)⟩

/-- C5 (code bug): the exception handler inside compute_fft maps any
non-ValueError windowing failure to a SUCCESSFUL windowing step carrying the
original unwindowed data, so the forward transform proceeds without the
window instead of failing. -/
theorem fft_window_fallback_masks_error (data : List ℝ) (msg : String) :
    fft_window_fallback data (Except.error (DspError.otherError msg)) =
      Except.ok data :=
  rfl

lemma compute_fft_some_hann (data : List ℝ) (fs : ℝ) (n : Option ℕ) :
    compute_fft data fs n (some "hann") =
      Except.ok (scipy_fftfreq (n.getD data.length) (1 / fs),
        scipy_fft (List.zipWith (fun u v => u * v) data (hann_window data.length))
          (n.getD data.length)) := by
  have hlen : (List.zipWith (fun u v : ℝ => u * v) data
      (hann_window data.length)).length = data.length := by
    rw [List.length_zipWith, hann_window_length, min_self]
  have hstep : fft_window_step data (some "hann")
      = Except.ok (List.zipWith (fun u v => u * v) data (hann_window data.length)) := by
    unfold fft_window_step
    show (if ("hann" : String) = "" then Except.ok data
      else fft_window_fallback data (apply_window data "hann")) = _
    rw [if_neg (by decide)]
    rw [show apply_window data "hann"
        = Except.ok (List.zipWith (fun u v => u * v) data (hann_window data.length)) from by
      unfold apply_window
      rw [show get_window "hann" data.length = some (hann_window data.length) from by
        unfold get_window; rw [if_pos rfl]]]
    rfl
  have hmain : compute_fft data fs n (some "hann") =
      Except.ok (scipy_fftfreq
        (n.getD (List.zipWith (fun u v : ℝ => u * v) data
          (hann_window data.length)).length) (1 / fs),
        scipy_fft (List.zipWith (fun u v => u * v) data (hann_window data.length))
          (n.getD (List.zipWith (fun u v : ℝ => u * v) data
            (hann_window data.length)).length)) := by
    unfold compute_fft
    rw [hstep]
  rw [hmain, hlen]

/-- C10 (corrected, main part): with the source's default window argument
(Hann), compute_fft multiplies the input by the symmetric Hann window of the
data's length before transforming, so the default spectrum is the DFT of the
windowed data; an explicit window=None yields the DFT of the raw data. -/
theorem fft_default_window_applies_hann (data : List ℝ) (fs : ℝ) (n : Option ℕ) :
    compute_fft data fs n fft_default_window =
      Except.ok (scipy_fftfreq (n.getD data.length) (1 / fs),
        scipy_fft (List.zipWith (fun u v => u * v) data (hann_window data.length))
          (n.getD data.length)) ∧
    compute_fft data fs n none =
      Except.ok (scipy_fftfreq (n.getD data.length) (1 / fs),
        scipy_fft data (n.getD data.length)) :=
  ⟨compute_fft_some_hann data fs n, rfl⟩

/-- Counterexample to C10's claim that ONLY an explicit window=None yields the
DFT of the raw input: the empty window string (Python-falsy under the
source's `if window:`) also skips windowing, and for a length-1 signal even
the default Hann path returns the DFT of the raw input (the length-1 Hann
window is [1]). -/
theorem fft_default_window_raw_dft_counterexample :
    compute_fft [1] 1 none (some "") =
      Except.ok (scipy_fftfreq 1 (1 / 1), scipy_fft [1] 1) ∧
    (some "" : Option String) ≠ none ∧
    compute_fft [1] 1 none fft_default_window =
      Except.ok (scipy_fftfreq 1 (1 / 1), scipy_fft [1] 1) ∧
    fft_default_window ≠ none := by
  refine ⟨rfl, by simp, ?_, by simp [fft_default_window]⟩
  have h := compute_fft_some_hann [1] 1 none
  rw [show fft_default_window = some "hann" from rfl, h]
  have hz : List.zipWith (fun u v : ℝ => u * v) [1]
      (hann_window (([1] : List ℝ).length)) = [1] := by
    rw [show (([1] : List ℝ).length) = 1 from rfl]
    rw [show hann_window 1 = [(1 : ℝ)] from by unfold hann_window; norm_num]
    norm_num
  rw [hz]
  rfl

/-- C1 (corrected / amended): with windowing disabled (window=None), for any
real signal x and any FFT length n ≥ len(x), the inverse transform of the
forward transform reconstructs the first len(x) samples exactly, in
particular within the 1e-9 per-sample tolerance. -/
theorem fft_ifft_roundtrip_no_window (x : List ℝ) (fs : ℝ) (n : ℕ)
    (hn : x.length ≤ n) :
    compute_fft x fs (some n) none =
      Except.ok (scipy_fftfreq n (1 / fs), scipy_fft x n) ∧
    ∀ j < x.length,
      |(compute_ifft (scipy_fft x n) (some n)).getD j 0 - x.getD j 0| ≤ 1e-9 := by
  refine ⟨rfl, ?_⟩
  intro j hj
  have hjn : j < n := lt_of_lt_of_le hj hn
  unfold compute_ifft
  simp only [Option.getD_some]
  rw [scipy_ifft_scipy_fft_getD x n j hjn, sub_self, abs_zero]
  norm_num

/-- Witness for C1 (amended) at x = [1, 2], fs = 1, n = 4. -/
theorem fft_ifft_roundtrip_no_window_witness :
    ([1, 2] : List ℝ).length ≤ 4 ∧
    (compute_fft [1, 2] 1 (some 4) none =
        Except.ok (scipy_fftfreq 4 (1 / 1), scipy_fft [1, 2] 4) ∧
      ∀ j < ([1, 2] : List ℝ).length,
        |(compute_ifft (scipy_fft [1, 2] 4) (some 4)).getD j 0 -
          ([1, 2] : List ℝ).getD j 0| ≤ 1e-9) :=
  ⟨by simp, fft_ifft_roundtrip_no_window [1, 2] 1 4 (by simp)⟩

lemma hann_window_two : hann_window 2 = [0, 0] := by
  unfold hann_window
  rw [if_neg (by omega), show List.range 2 = [0, 1] from rfl]
  have h0 : (0.5 : ℝ) * (1 - Real.cos (2 * Real.pi * ((0 : ℕ) : ℝ) / (((2 : ℕ) : ℝ) - 1)))
      = 0 := by norm_num
  have h1 : (0.5 : ℝ) * (1 - Real.cos (2 * Real.pi * ((1 : ℕ) : ℝ) / (((2 : ℕ) : ℝ) - 1)))
      = 0 := by
    have harg : 2 * Real.pi * ((1 : ℕ) : ℝ) / (((2 : ℕ) : ℝ) - 1) = 2 * Real.pi := by
      norm_num
    rw [harg, Real.cos_two_pi]
    norm_num
  simp only [List.map]
  rw [h0, h1]

lemma scipy_fft_zero_zero : scipy_fft [0, 0] 2 = [0, 0] := by
  unfold scipy_fft
  rw [show List.range 2 = [0, 1] from rfl]
  simp [Finset.sum_range_succ]

lemma scipy_ifft_zero_zero : scipy_ifft [0, 0] 2 = [0, 0] := by
  unfold scipy_ifft
  rw [show List.range 2 = [0, 1] from rfl]
  simp [Finset.sum_range_succ]

/-- Counterexample to C1 as stated: calling the forward transform on
x = [1, 1] with N = 2 and the source's default window argument applies the
symmetric Hann window [0, 0], so the spectrum is that of [0, 0] and the
inverse transform returns [0, 0]: the first sample differs from x by 1,
far beyond the 1e-9 tolerance. -/
theorem fft_ifft_roundtrip_default_counterexample :
    compute_fft [1, 1] 1 (some 2) fft_default_window =
      Except.ok (scipy_fftfreq 2 (1 / 1), scipy_fft [0, 0] 2) ∧
    compute_ifft (scipy_fft [0, 0] 2) (some 2) = [0, 0] ∧
    ¬ |(compute_ifft (scipy_fft [0, 0] 2) (some 2)).getD 0 0 -
        ([1, 1] : List ℝ).getD 0 0| ≤ 1e-9 := by
  have hz : List.zipWith (fun u v : ℝ => u * v) [1, 1]
      (hann_window (([1, 1] : List ℝ).length)) = [0, 0] := by
    rw [show (([1, 1] : List ℝ).length) = 2 from rfl, hann_window_two]
    norm_num
  have hifft : compute_ifft (scipy_fft [0, 0] 2) (some 2) = [0, 0] := by
    unfold compute_ifft
    simp only [Option.getD_some]
    rw [scipy_fft_zero_zero, scipy_ifft_zero_zero]
  refine ⟨?_, hifft, ?_⟩
  · have h := compute_fft_some_hann [1, 1] 1 (some 2)
    rw [show fft_default_window = some "hann" from rfl, h, hz]
    rfl
  · rw [hifft]
    norm_num

-- STFT model (librosa.stft as called by compute_stft).

/-- Periodic (fftbins=True) Hann window used by librosa.stft's default
window: w[j] = 0.5·(1 - cos(2·π·j/L)); all-ones for L ≤ 1. -/
noncomputable def hann_periodic (L : ℕ) : List ℝ :=
  if L ≤ 1 then List.replicate L 1
  else (List.range L).map fun (j : ℕ) =>
    0.5 * (1 - Real.cos (2 * Real.pi * j / (L : ℝ)))

/-- librosa.util.pad_center: symmetric zero-padding of a window to length n
(left pad (n-len)//2, remainder on the right). -/
def pad_center_list (w : List ℝ) (n : ℕ) : List ℝ :=
  List.replicate ((n - w.length) / 2) 0 ++ w ++
    List.replicate (n - w.length - (n - w.length) / 2) 0

/-- librosa.stft's effective analysis window length: win_length defaults
to n_fft. -/
def stft_window_length (n_fft : ℕ) (win_length : Option ℕ) : ℕ :=
  win_length.getD n_fft

/-- librosa.stft's effective hop: hop_length defaults to win_length // 4. -/
def stft_hop (n_fft : ℕ) (hop_length win_length : Option ℕ) : ℕ :=
  hop_length.getD ((win_length.getD n_fft) / 4)

/-- The signal librosa.stft frames: with center=True, y is padded by
n_fft // 2 zeros on each side (pad_mode='constant'). -/
def stft_padded (y : List ℝ) (n_fft : ℕ) (center : Bool) : List ℝ :=
  if center then
    List.replicate (n_fft / 2) (0 : ℝ) ++ y ++ List.replicate (n_fft / 2) 0
  else y

/-- librosa.stft: frame the (possibly centered) signal with the given hop,
multiply each frame by the analysis window padded to n_fft, take the
length-n_fft DFT and keep the one-sided bins 0..n_fft/2.  Row index k is the
frequency bin, column index t the frame. -/
noncomputable def librosa_stft (y : List ℝ) (n_fft : ℕ)
    (hop_length win_length : Option ℕ) (center : Bool) : List (List ℂ) :=
  (List.range (n_fft / 2 + 1)).map fun (k : ℕ) =>
    (List.range (((stft_padded y n_fft center).length - n_fft)
        / (stft_hop n_fft hop_length win_length) + 1)).map fun (t : ℕ) =>
      ∑ j ∈ Finset.range n_fft,
        (((pad_center_list (hann_periodic (stft_window_length n_fft win_length))
              n_fft).getD j 0
            * (stft_padded y n_fft center).getD
              (t * (stft_hop n_fft hop_length win_length) + j) 0 : ℝ) : ℂ)
          * cexp_tw n_fft (-((j : ℤ) * (k : ℤ)))

/-- sygnals compute_stft (dsp.py lines 167-229): validates the input is 1-D
and delegates to librosa.stft. -/
noncomputable def compute_stft (y : List ℝ) (n_fft : ℕ)
    (hop_length win_length : Option ℕ) (center : Bool) :
    Except DspError (List (List ℂ)) :=
  Except.ok (librosa_stft y n_fft hop_length win_length center)

/-- C6 (confirmed): for a 2-second signal at 22050 Hz (44100 samples),
stft with n_fft=1024, hop_length=256 and centered padding returns a matrix
with exactly 513 = 1024/2 + 1 frequency rows, each holding exactly
173 = ⌈44100/256⌉ frame columns. -/
theorem stft_shape_2s_22050 (y : List ℝ) (hy : y.length = 44100) :
    ∃ m, compute_stft y 1024 (some 256) none true = Except.ok m ∧
      m.length = 513 ∧ (∀ row ∈ m, row.length = 173) ∧
      513 = 1024 / 2 + 1 ∧ 173 = (44100 + 256 - 1) / 256 := by
  refine ⟨librosa_stft y 1024 (some 256) none true, rfl, ?_, ?_, by norm_num, by norm_num⟩
  · unfold librosa_stft
    rw [List.length_map, List.length_range]
  · intro row hrow
    unfold librosa_stft at hrow
    rw [List.mem_map] at hrow
    obtain ⟨k, _, hk⟩ := hrow
    rw [← hk, List.length_map, List.length_range]
    have hp : (stft_padded y 1024 true).length = 45124 := by
      unfold stft_padded
      rw [if_pos rfl, List.length_append, List.length_append,
        List.length_replicate, hy]
    rw [hp]
    norm_num [stft_hop]

/-- Witness for C6 at the all-zero 2-second signal. -/
theorem stft_shape_2s_22050_witness :
    (List.replicate 44100 (0 : ℝ)).length = 44100 ∧
    (∃ m, compute_stft (List.replicate 44100 (0 : ℝ)) 1024 (some 256) none true =
        Except.ok m ∧
      m.length = 513 ∧ (∀ row ∈ m, row.length = 173) ∧
      513 = 1024 / 2 + 1 ∧ 173 = (44100 + 256 - 1) / 256) :=
  ⟨by rw [List.length_replicate],
    stft_shape_2s_22050 (List.replicate 44100 0) (by rw [List.length_replicate])⟩

-- Envelope detection (dsp.py lines 565-636).

/-- scipy.signal.hilbert magnitude: the amplitude envelope as the absolute
value of the analytic signal, computed from the one-sided-doubled spectrum. -/
noncomputable def scipy_hilbert_env (y : List ℝ) : List ℝ :=
  (List.range y.length).map fun (j : ℕ) =>
    Complex.abs (((y.length : ℂ))⁻¹ *
      ∑ k ∈ Finset.range y.length,
        (if k = 0 then (1 : ℂ) else if 2 * k < y.length then 2
          else if 2 * k = y.length then 1 else 0)
          * (scipy_fft y y.length).getD k 0 * cexp_tw y.length ((j : ℤ) * (k : ℤ)))

/-- sygnals amplitude_envelope (dsp.py lines 565-636).  The rms branch first
checks the module-level availability flag of the imported rms_energy
capability and raises ImportError when it is missing, before looking at
frame_length / hop_length and before calling the capability; the capability
itself is an external function parameter, called with center=True. -/
noncomputable def amplitude_envelope (y : List ℝ) (method : String)
    (frame_length hop_length : Option ℕ) (rms_available : Bool)
    (rms_energy_fn : List ℝ → ℕ → ℕ → Bool → List ℝ) : Except DspError (List ℝ) :=
  if method = "hilbert" then Except.ok (scipy_hilbert_env y)
  else if method = "rms" then
    if rms_available then
      match frame_length, hop_length with
      | some fl, some hl => Except.ok (rms_energy_fn y fl hl true)
      | _, _ => Except.error (DspError.valueError
          "frame_length and hop_length are required for rms envelope method")
    else Except.error (DspError.importError
      "rms_energy function not found. Cannot compute RMS envelope.")
  else Except.error (DspError.valueError "Unsupported envelope method")

/-- C8 (confirmed): whenever the external RMS-energy capability is
unavailable, the rms envelope method fails with the missing-capability
(ImportError) error, for every input signal, every frame/hop configuration
(even a missing one) and every candidate external function — in particular it
never falls back to another method or an unmodified result. -/
theorem rms_envelope_missing_capability_fails (y : List ℝ)
    (frame_length hop_length : Option ℕ)
    (rms_energy_fn : List ℝ → ℕ → ℕ → Bool → List ℝ) :
    amplitude_envelope y "rms" frame_length hop_length false rms_energy_fn =
      Except.error (DspError.importError
        "rms_energy function not found. Cannot compute RMS envelope.") :=
  rfl

end Sygnals
